import Mathlib

/-!
Verification of the adaptive sharded-blockchain core (Go sources) against its
natural-language specification.

The Go code is shallowly embedded: slices become lists, structs become
structures, the package-level mutable forest and filter slices become explicit
state passed to each operation, and operations that can hit a Go runtime panic
(index out of range) return Option, with none standing for the panic.  The
SHA-256 pair combination hex(sha256(left ++ right)) is abstracted as an
uninterpreted parameter hp : String → String → String, since none of the
verified properties depend on properties of the concrete hash; witnesses
instantiate hp with a concrete injective-looking string builder.  Mining
(mineBlock), content hashing (calculateHash), timestamps and the consensus
oracle (dBFTConsensus) are likewise collaborator parameters, exactly the
boundary the specification draws in its section 2.
-/

namespace AdaptiveChain

/-- Block mirrors the Go struct Block (main.go): shard-local index, timestamp
string, payload, previous-block hash, own hash, proof-of-work nonce, and the
validator identifier. -/
structure Block where
  Index : Int
  Timestamp : String
  Data : String
  PrevHash : String
  Hash : String
  Nonce : Int
  Validator : String
deriving DecidableEq

/-- Shard mirrors the Go struct Shard: an ordered block list plus the cached
Merkle root string. -/
structure Shard where
  Blocks : List Block
  MerkleRoot : String
deriving DecidableEq

/-- Zero value of Block, as Go would produce it. -/
def blockDefault : Block :=
  { Index := 0, Timestamp := "", Data := "", PrevHash := "", Hash := "", Nonce := 0, Validator := "" }

/-- Zero value of Shard. -/
def shardDefault : Shard := { Blocks := [], MerkleRoot := "" }

/-- Go constant shardCount = 2. -/
def shardCount : Nat := 2

/-- Go constant maxShardCapacity = 5. -/
def maxShardCapacity : Nat := 5

/-! ## HashTree: updateMerkleRoot, generateMerkleProof, validateMerkleProof -/

/-- One pass of the inner pairing loop of updateMerkleRoot and of
generateMerkleProof: combine adjacent hashes left to right; a lone trailing
hash is combined with itself (Go: right starts as hashes[i] and is replaced by
hashes[i+1] only when i+1 is in range). -/
def levelUp (hp : String → String → String) : List String → List String
  | [] => []
  | [a] => [hp a a]
  | a :: b :: rest => hp a b :: levelUp hp rest

/-- Sibling collected for position idx by the proof loop of
generateMerkleProof: for even idx the next hash (or the hash itself when the
level is odd and idx is last), for odd idx the previous hash. -/
def levelSibling (l : List String) (idx : Nat) : String :=
  if idx % 2 = 0 then
    if idx + 1 < l.length then l.getD (idx + 1) "" else l.getD idx ""
  else
    l.getD (idx - 1) ""

/-- Fuel-indexed rendering of the Go loop "for len(hashes) > 1 { hashes =
level-up }" in updateMerkleRoot.  One fuel unit is one loop iteration; the
callers pass the initial length, which exceeds the iteration count, and
rootLoop_congr shows any sufficient fuel gives the same value. -/
def rootLoop (hp : String → String → String) : Nat → List String → List String
  | 0, hashes => hashes
  | fuel + 1, hashes =>
    if hashes.length ≤ 1 then hashes else rootLoop hp fuel (levelUp hp hashes)

/-- Root of a nonempty hash level: run the pairing loop to a single hash and
return it (Go: return hashes[0]). -/
def rootFrom (hp : String → String → String) (l : List String) : String :=
  (rootLoop hp l.length l).headD ""

/-- updateMerkleRoot (part_005 lines 70-92): empty block list gives the empty
string; otherwise pair up the block hashes level by level until one remains. -/
def updateMerkleRoot (hp : String → String → String) (blocks : List Block) : String :=
  if blocks.length = 0 then "" else rootFrom hp (blocks.map (·.Hash))

/-- Fuel-indexed rendering of the proof-collection loop of generateMerkleProof
(part_005 lines 106-128): at each level record the sibling of the running
index, halve the index, and move to the next level.  The running index stays
below the level length whenever it starts below it, so the sibling collection
of the Go loop fires exactly once per level, which is what the cons encodes. -/
def proofLoop (hp : String → String → String) : Nat → List String → Nat → List String
  | 0, _, _ => []
  | fuel + 1, level, idx =>
    if level.length ≤ 1 then []
    else levelSibling level idx :: proofLoop hp fuel (levelUp hp level) (idx / 2)

/-- Proof path for index idx over a leaf level. -/
def proofFrom (hp : String → String → String) (l : List String) (idx : Nat) : List String :=
  proofLoop hp l.length l idx

/-- generateMerkleProof (part_005 lines 95-130) on the block list of a shard:
for an out-of-range index Go returns nil, embedded as the empty list; otherwise
the sibling path from the leaf level to the root. -/
def generateMerkleProof (hp : String → String → String) (blocks : List Block)
    (blockIndex : Nat) : List String :=
  if blocks.length ≤ blockIndex then []
  else proofFrom hp (blocks.map (·.Hash)) blockIndex

/-- Recombination loop of validateMerkleProof (part_005 lines 190-200):
combine the running hash with each sibling, current hash first when the
running index is even, sibling first when it is odd, halving the index. -/
def foldProof (hp : String → String → String) : String → Nat → List String → String
  | hash, _, [] => hash
  | hash, idx, sibling :: rest =>
    foldProof hp (if idx % 2 = 0 then hp hash sibling else hp sibling hash) (idx / 2) rest

/-- validateMerkleProof (part_005 lines 185-203) against one shard: recombine
the leaf hash at blockIndex with the proof and compare with the cached root.
Go indexes Blocks[blockIndex] directly; all verified call sites keep blockIndex
in range, where getD is that exact access. -/
def validateMerkleProof (hp : String → String → String) (shard : Shard)
    (blockIndex : Nat) (proof : List String) : Bool :=
  foldProof hp ((shard.Blocks.getD blockIndex blockDefault).Hash) blockIndex proof
    == shard.MerkleRoot

/-! ## MerkleForest: shard selection, ingest, rebalance, cross-shard sync -/

/-- Load score of one shard as computed for the shards scanned by the selection
loop of addBlockToShards (part_005 lines 30-34): the block count plus a fixed
penalty of 2 when the count strictly exceeds maxShardCapacity - 1. -/
def loadScore (s : Shard) : Nat :=
  s.Blocks.length + (if s.Blocks.length > maxShardCapacity - 1 then 2 else 0)

/-- Selection loop of addBlockToShards (part_005 lines 29-39) over the shards
after the first, carrying the running index, current target and current
minimum score; only a strictly smaller score replaces the target. -/
def selectLoop : List Shard → Nat → Nat → Nat → Nat
  | [], _, target, _ => target
  | s :: rest, i, target, minScore =>
    if loadScore s < minScore then selectLoop rest (i + 1) i (loadScore s)
    else selectLoop rest (i + 1) target minScore

/-- Target-shard selection of addBlockToShards (part_005 lines 27-39).  The
initial minimum is the raw block count of shard 0 (line 28), with no penalty
term, and the scan starts at shard 1. -/
def selectTarget (forest : List Shard) : Nat :=
  selectLoop (forest.drop 1) 1 0 ((forest.headD shardDefault).Blocks.length)

/-- Tail read of the selected shard in addBlockToShards (part_005 line 42):
Go indexes Blocks[len(Blocks)-1] with no emptiness check, so an empty selected
shard is a runtime panic, embedded as none. -/
def ingestPrevBlock (forest : List Shard) : Option Block :=
  (forest.getD (selectTarget forest) shardDefault).Blocks.getLast?

/-- Max/min scan of rebalanceShards (part_005 lines 134-148): one pass over all
shards carrying ((maxIndex, maxCount), (minIndex, minCount)); strict
comparisons keep the lowest index on ties. -/
def findMaxMin : List Shard → Nat → (Nat × Nat) × (Nat × Nat) → (Nat × Nat) × (Nat × Nat)
  | [], _, acc => acc
  | s :: rest, i, ((xi, xc), (ni, nc)) =>
    findMaxMin rest (i + 1)
      ((if s.Blocks.length > xc then (i, s.Blocks.length) else (xi, xc)),
       (if s.Blocks.length < nc then (i, s.Blocks.length) else (ni, nc)))

/-- rebalanceShards (part_005 lines 133-158): scan for the max-count and
min-count shards starting from maxCount 0 and minCount = count of shard 0;
when the indices differ and the count gap exceeds 1, move the tail block of
the max shard to the end of the min shard and recompute both roots.  In the
move branch the max shard is provably nonempty, where getLastD is the Go
access Blocks[len(Blocks)-1]. -/
def rebalanceShards (hp : String → String → String) (forest : List Shard) : List Shard :=
  let acc := findMaxMin forest 0 ((0, 0), (0, (forest.headD shardDefault).Blocks.length))
  let xi := acc.1.1
  let xc := acc.1.2
  let ni := acc.2.1
  let nc := acc.2.2
  if xi ≠ ni ∧ xc - nc > 1 then
    let maxShard := forest.getD xi shardDefault
    let minShard := forest.getD ni shardDefault
    let blockToMove := maxShard.Blocks.getLastD blockDefault
    let maxBlocks := maxShard.Blocks.dropLast
    let minBlocks := minShard.Blocks ++ [blockToMove]
    (forest.set xi { Blocks := maxBlocks, MerkleRoot := updateMerkleRoot hp maxBlocks }).set ni
      { Blocks := minBlocks, MerkleRoot := updateMerkleRoot hp minBlocks }
  else forest

/-- synchronizeShards (part_005 lines 161-165): recompute every cached root
from the current block list. -/
def synchronizeShards (hp : String → String → String) (forest : List Shard) : List Shard :=
  forest.map fun s => { s with MerkleRoot := updateMerkleRoot hp s.Blocks }

/-- synchronizeStateAcrossShards (part_005 lines 168-182): take the source tail
block and its proof against the current source root; on successful validation
append that block value unchanged to the target shard and recompute all roots,
otherwise report and leave the forest as it is.  Go takes pointers into the
forest slice for both indices up front and indexes the source tail with no
emptiness check, so an out-of-range index or an empty source shard is a
runtime panic, embedded as none. -/
def synchronizeStateAcrossShards (hp : String → String → String) (forest : List Shard)
    (sourceShardIndex targetShardIndex : Nat) : Option (List Shard) :=
  if sourceShardIndex < forest.length ∧ targetShardIndex < forest.length then
    let sourceShard := forest.getD sourceShardIndex shardDefault
    let lastBlockIndex := sourceShard.Blocks.length - 1
    let proof := generateMerkleProof hp sourceShard.Blocks lastBlockIndex
    match sourceShard.Blocks.getLast? with
    | none => none
    | some blockToTransfer =>
      if validateMerkleProof hp sourceShard lastBlockIndex proof then
        let targetShard := forest.getD targetShardIndex shardDefault
        some (synchronizeShards hp (forest.set targetShardIndex
          { targetShard with Blocks := targetShard.Blocks ++ [blockToTransfer] }))
      else some forest
  else none

/-! ## AMQ filter and forest state -/

/-- AMQFilter (part_005 lines 212-215) holds a set of hashes; the Go
map[string]bool with true values is embedded as the list of inserted hashes
queried by membership. -/
def updateAMQ (filters : List (List String)) (shardIndex : Nat) (hash : String) :
    List (List String) :=
  filters.set shardIndex (hash :: filters.getD shardIndex [])

/-- isInAMQ (part_005 lines 232-234): presence query on the filter of one
shard; a missing key reads false, exactly the Go map default. -/
def isInAMQ (filters : List (List String)) (shardIndex : Nat) (hash : String) : Bool :=
  (filters.getD shardIndex []).contains hash

/-- Combined mutable package state of part_005: the merkleForest slice and the
amqFilters slice. -/
structure ForestState where
  forest : List Shard
  filters : List (List String)
deriving DecidableEq

/-- addBlockToShards (part_005 lines 25-67).  The collaborator boundary of the
specification is explicit: now is the timestamp string, mine the
proof-of-work nonce search, calcHash the content hash, consensus the dBFT
accept/reject oracle.  The block construction with Index + 1 and
PrevHash = prevBlock.Hash, the append, the root update, the AMQ insert, the
capacity-triggered rebalance and the neighbour sync mirror the Go body; the
unchecked tail read is ingestPrevBlock, whose none is the Go panic. -/
def addBlockToShards (hp : String → String → String) (now : String)
    (mine : Block → Int) (calcHash : Block → String) (consensus : Block → Bool)
    (st : ForestState) (data validator : String) : Option ForestState :=
  let target := selectTarget st.forest
  match ingestPrevBlock st.forest with
  | none => none
  | some prevBlock =>
    let b0 : Block :=
      { Index := prevBlock.Index + 1, Timestamp := now, Data := data,
        PrevHash := prevBlock.Hash, Hash := "", Nonce := 0, Validator := validator }
    let b1 := { b0 with Nonce := mine b0 }
    let newBlock := { b1 with Hash := calcHash b1 }
    if consensus newBlock then
      let shard := st.forest.getD target shardDefault
      let blocks1 := shard.Blocks ++ [newBlock]
      let forest1 := st.forest.set target { Blocks := blocks1, MerkleRoot := updateMerkleRoot hp blocks1 }
      let filters1 := updateAMQ st.filters target newBlock.Hash
      let forest2 := if blocks1.length > maxShardCapacity then rebalanceShards hp forest1 else forest1
      match synchronizeStateAcrossShards hp forest2 target ((target + 1) % forest2.length) with
      | none => none
      | some forest3 => some { forest := forest3, filters := filters1 }
    else some st

/-! ## Accumulator snapshot -/

/-- Value of one hexadecimal digit, none on a non-hex character. -/
def hexVal (c : Char) : Option Nat :=
  if ('0' ≤ c ∧ c ≤ '9') then some (c.toNat - '0'.toNat)
  else if ('a' ≤ c ∧ c ≤ 'f') then some (c.toNat - 'a'.toNat + 10)
  else if ('A' ≤ c ∧ c ≤ 'F') then some (c.toNat - 'A'.toNat + 10)
  else none

/-- Go hex.DecodeString with the error ignored, as getAccumulatorSnapshot does
(part_005 line 251): return the bytes decoded before the first bad pair or the
odd tail. -/
def hexDecode : List Char → List Nat
  | c1 :: c2 :: rest =>
    match hexVal c1, hexVal c2 with
    | some a, some b => (16 * a + b) :: hexDecode rest
    | _, _ => []
  | _ => []

/-- XOR step of getAccumulatorSnapshot (part_005 lines 252-254): acc[i] ^=
hashBytes[i] for i in 0..31.  Go indexes hashBytes[i] unconditionally, so a
decode shorter than 32 bytes is a runtime panic, embedded as none. -/
def xorInto (acc bytes : List Nat) : Option (List Nat) :=
  if bytes.length < acc.length then none
  else some (acc.zipWith Nat.xor (bytes.take acc.length))

/-- getAccumulatorSnapshot (part_005 lines 248-257) over the block list of one
shard: start from 32 zero bytes and XOR in the hex decoding of every block
hash; none is the Go index-out-of-range panic on a decode shorter than the
accumulator. -/
def getAccumulatorSnapshot (shard : Shard) : Option (List Nat) :=
  shard.Blocks.foldl
    (fun acc block => match acc with
      | none => none
      | some a => xorInto a (hexDecode block.Hash.toList))
    (some (List.replicate 32 0))

/-! ## Claim-modelled selection rule (spec section 4.3 wording, for C3) -/

/-- Load score as the claim words it: every shard, including shard 0, gets the
penalty of 2 as soon as its count is at least maxShardCapacity - 1. -/
def claimLoadScore (s : Shard) : Nat :=
  s.Blocks.length + (if s.Blocks.length ≥ maxShardCapacity - 1 then 2 else 0)

/-- Least-index argmin of claimLoadScore, the selection rule the claim
describes: shard 0 is scored by the same rule as every other shard. -/
def selectLoopClaim : List Shard → Nat → Nat → Nat → Nat
  | [], _, target, _ => target
  | s :: rest, i, target, minScore =>
    if claimLoadScore s < minScore then selectLoopClaim rest (i + 1) i (claimLoadScore s)
    else selectLoopClaim rest (i + 1) target minScore

/-- Target selection as the claim describes it. -/
def selectTargetClaim (forest : List Shard) : Nat :=
  selectLoopClaim (forest.drop 1) 1 0 (claimLoadScore (forest.headD shardDefault))

/-! ## Helper lemmas: one level of the tree -/

/-- Each pairing pass halves the level size, rounding up. -/
theorem levelUp_length (hp : String → String → String) :
    ∀ l : List String, (levelUp hp l).length = (l.length + 1) / 2
  | [] => by simp [levelUp]
  | [_] => by simp [levelUp]
  | _ :: _ :: rest => by
    simp only [levelUp, List.length_cons, levelUp_length hp rest]
    omega

/-- A level already reduced to at most one hash is a fixed point of the root
loop, whatever the fuel. -/
theorem rootLoop_of_le_one (hp : String → String → String) (fuel : Nat) (l : List String)
    (h : l.length ≤ 1) : rootLoop hp fuel l = l := by
  cases fuel with
  | zero => rfl
  | succ n => simp [rootLoop, h]

/-- One unfolding of the root loop on a level of two or more hashes. -/
theorem rootLoop_step (hp : String → String → String) (fuel : Nat) (l : List String)
    (h : ¬ l.length ≤ 1) : rootLoop hp (fuel + 1) l = rootLoop hp fuel (levelUp hp l) := by
  simp [rootLoop, h]

/-- Any fuel at least the level size minus one runs the root loop to its fixed
point, so all sufficient fuels agree. -/
theorem rootLoop_congr (hp : String → String → String) (l : List String) (n m : Nat)
    (hn : l.length ≤ n + 1) (hm : l.length ≤ m + 1) : rootLoop hp n l = rootLoop hp m l := by
  by_cases h1 : l.length ≤ 1
  · rw [rootLoop_of_le_one hp n l h1, rootLoop_of_le_one hp m l h1]
  · obtain ⟨n1, rfl⟩ : ∃ n1, n = n1 + 1 := ⟨n - 1, by omega⟩
    obtain ⟨m1, rfl⟩ : ∃ m1, m = m1 + 1 := ⟨m - 1, by omega⟩
    have hlen : (levelUp hp l).length = (l.length + 1) / 2 := levelUp_length hp l
    rw [rootLoop_step hp n1 l h1, rootLoop_step hp m1 l h1]
    exact rootLoop_congr hp (levelUp hp l) n1 m1 (by omega) (by omega)
termination_by l.length
decreasing_by simp [levelUp_length]; omega

/-- Unfolding of rootFrom across one pairing pass. -/
theorem rootFrom_step (hp : String → String → String) (l : List String) (h : 2 ≤ l.length) :
    rootFrom hp l = rootFrom hp (levelUp hp l) := by
  have h1 : ¬ l.length ≤ 1 := by omega
  have e1 : l.length = (l.length - 1) + 1 := by omega
  unfold rootFrom
  rw [e1, rootLoop_step hp (l.length - 1) l h1,
    rootLoop_congr hp (levelUp hp l) (l.length - 1) ((levelUp hp l).length)
      (by rw [levelUp_length]; omega) (by omega)]

/-- A one-hash level is its own root. -/
theorem rootFrom_single (hp : String → String → String) (a : String) :
    rootFrom hp [a] = a := rfl

/-- The proof loop emits nothing on a level of at most one hash. -/
theorem proofLoop_of_le_one (hp : String → String → String) (fuel : Nat) (l : List String)
    (idx : Nat) (h : l.length ≤ 1) : proofLoop hp fuel l idx = [] := by
  cases fuel with
  | zero => rfl
  | succ n => simp [proofLoop, h]

/-- One unfolding of the proof loop on a level of two or more hashes. -/
theorem proofLoop_step (hp : String → String → String) (fuel : Nat) (l : List String)
    (idx : Nat) (h : ¬ l.length ≤ 1) :
    proofLoop hp (fuel + 1) l idx =
      levelSibling l idx :: proofLoop hp fuel (levelUp hp l) (idx / 2) := by
  simp [proofLoop, h]

/-- All sufficient fuels agree for the proof loop as well. -/
theorem proofLoop_congr (hp : String → String → String) (l : List String) (idx n m : Nat)
    (hn : l.length ≤ n + 1) (hm : l.length ≤ m + 1) :
    proofLoop hp n l idx = proofLoop hp m l idx := by
  by_cases h1 : l.length ≤ 1
  · rw [proofLoop_of_le_one hp n l idx h1, proofLoop_of_le_one hp m l idx h1]
  · obtain ⟨n1, rfl⟩ : ∃ n1, n = n1 + 1 := ⟨n - 1, by omega⟩
    obtain ⟨m1, rfl⟩ : ∃ m1, m = m1 + 1 := ⟨m - 1, by omega⟩
    have hlen : (levelUp hp l).length = (l.length + 1) / 2 := levelUp_length hp l
    rw [proofLoop_step hp n1 l idx h1, proofLoop_step hp m1 l idx h1]
    rw [proofLoop_congr hp (levelUp hp l) (idx / 2) n1 m1 (by omega) (by omega)]
termination_by l.length
decreasing_by simp [levelUp_length]; omega

/-- Unfolding of proofFrom across one pairing pass. -/
theorem proofFrom_step (hp : String → String → String) (l : List String) (idx : Nat)
    (h : 2 ≤ l.length) :
    proofFrom hp l idx = levelSibling l idx :: proofFrom hp (levelUp hp l) (idx / 2) := by
  have h1 : ¬ l.length ≤ 1 := by omega
  have e1 : l.length = (l.length - 1) + 1 := by omega
  unfold proofFrom
  rw [e1, proofLoop_step hp (l.length - 1) l idx h1,
    proofLoop_congr hp (levelUp hp l) (idx / 2) (l.length - 1) ((levelUp hp l).length)
      (by rw [levelUp_length]; omega) (by omega)]

/-- Entry of the paired level at the halved index: the pair containing
position i of the lower level, with the duplicate-last padding applied when i
is the lone final even position. -/
theorem levelUp_getD (hp : String → String → String) :
    ∀ (l : List String) (i : Nat), i < l.length →
      (levelUp hp l).getD (i / 2) "" =
        if i % 2 = 1 then hp (l.getD (i - 1) "") (l.getD i "")
        else if i + 1 < l.length then hp (l.getD i "") (l.getD (i + 1) "")
        else hp (l.getD i "") (l.getD i "")
  | [], i, hi => by simp at hi
  | [a], i, hi => by
    have h0 : i = 0 := by simp at hi; omega
    subst h0
    simp [levelUp]
  | a :: b :: rest, 0, _ => by simp [levelUp]
  | a :: b :: rest, 1, _ => by simp [levelUp]
  | a :: b :: rest, (j + 2), hj => by
    have hj2 : j < rest.length := by simp at hj; omega
    have ih := levelUp_getD hp rest j hj2
    have e1 : (j + 2) / 2 = j / 2 + 1 := by omega
    have e2 : (j + 2) % 2 = j % 2 := by omega
    rw [e1, e2]
    show (levelUp hp rest).getD (j / 2) "" = _
    rw [ih]
    by_cases hodd : j % 2 = 1
    · obtain ⟨k, rfl⟩ : ∃ k, j = k + 1 := ⟨j - 1, by omega⟩
      simp [hodd]
    · have hlen : (a :: b :: rest).length = rest.length + 2 := by simp
      by_cases hin : j + 1 < rest.length
      · rw [if_neg hodd, if_neg hodd, if_pos hin, if_pos (by simp; omega)]
        simp
      · rw [if_neg hodd, if_neg hodd, if_neg hin, if_neg (by simp; omega)]
        simp

/-- Recombining the leaf with the emitted sibling path reproduces the root:
the heart of claim C1, by induction over pairing passes. -/
theorem foldProof_proofFrom (hp : String → String → String) (l : List String) (i : Nat)
    (hi : i < l.length) :
    foldProof hp (l.getD i "") i (proofFrom hp l i) = rootFrom hp l := by
  by_cases h1 : l.length ≤ 1
  · have hlen : l.length = 1 := by omega
    obtain ⟨a, rfl⟩ := List.length_eq_one.mp hlen
    have hi0 : i = 0 := by omega
    subst hi0
    rw [rootFrom_single]
    unfold proofFrom
    rw [proofLoop_of_le_one hp _ _ _ h1]
    rfl
  · have h2 : 2 ≤ l.length := by omega
    rw [proofFrom_step hp l i h2]
    show foldProof hp
      (if i % 2 = 0 then hp (l.getD i "") (levelSibling l i)
        else hp (levelSibling l i) (l.getD i "")) (i / 2) (proofFrom hp (levelUp hp l) (i / 2))
      = rootFrom hp l
    have hcomb :
        (if i % 2 = 0 then hp (l.getD i "") (levelSibling l i)
          else hp (levelSibling l i) (l.getD i "")) = (levelUp hp l).getD (i / 2) "" := by
      rw [levelUp_getD hp l i hi]
      unfold levelSibling
      by_cases he : i % 2 = 0
      · rw [if_pos he, if_pos he, if_neg (by omega : ¬ i % 2 = 1)]
        by_cases hin : i + 1 < l.length
        · rw [if_pos hin, if_pos hin]
        · rw [if_neg hin, if_neg hin]
      · rw [if_neg he, if_neg he, if_pos (by omega : i % 2 = 1)]
    rw [hcomb]
    have hi2 : i / 2 < (levelUp hp l).length := by
      rw [levelUp_length]
      omega
    rw [foldProof_proofFrom hp (levelUp hp l) (i / 2) hi2]
    rw [rootFrom_step hp l h2]
termination_by l.length
decreasing_by simp [levelUp_length]; omega

/-- getD through the hash projection, inside the range. -/
theorem getD_map_hash : ∀ (blocks : List Block) (i : Nat), i < blocks.length →
    (blocks.map (·.Hash)).getD i "" = (blocks.getD i blockDefault).Hash
  | _ :: _, 0, _ => rfl
  | _ :: bs, (n + 1), h => by
    simpa using getD_map_hash bs n (by simpa using h)

/-! ## Concrete instances used by witnesses and counterexamples -/

/-- Concrete pair combiner standing in for hex(sha256(left ++ right)) in
closed evaluations. -/
def hpw : String → String → String := fun a b => "(" ++ a ++ "|" ++ b ++ ")"

/-- Concrete three-leaf block list; index 2 is the padded lone last leaf. -/
def wBlocks : List Block :=
  [{ blockDefault with Hash := "x" }, { blockDefault with Hash := "y" },
   { blockDefault with Hash := "z" }]

/-- Concrete one-block list. -/
def wSingle : List Block := [{ blockDefault with Hash := "x" }]

/-! ## C1: proof round trip -/

/-- C1: for every nonempty block list and every valid index i, the proof
generateMerkleProof builds for i validates with validateMerkleProof against
the root updateMerkleRoot computes over the same list, including the levels
where the duplicated last node is the sibling of the target. -/
theorem merkle_roundtrip_valid (hp : String → String → String) (blocks : List Block)
    (i : Nat) (hi : i < blocks.length) :
    validateMerkleProof hp { Blocks := blocks, MerkleRoot := updateMerkleRoot hp blocks } i
      (generateMerkleProof hp blocks i) = true := by
  unfold validateMerkleProof generateMerkleProof updateMerkleRoot
  rw [if_neg (by omega : ¬ blocks.length ≤ i), if_neg (by omega : ¬ blocks.length = 0)]
  have hmap : i < (blocks.map (·.Hash)).length := by simpa using hi
  have hkey := foldProof_proofFrom hp (blocks.map (·.Hash)) i hmap
  rw [getD_map_hash blocks i hi] at hkey
  simp only [hkey, beq_self_eq_true]

/-- Witness for C1: three leaves, target index 2, whose level-0 sibling is the
padding duplicate of itself. -/
theorem merkle_roundtrip_valid_witness :
    2 < wBlocks.length ∧
      validateMerkleProof hpw { Blocks := wBlocks, MerkleRoot := updateMerkleRoot hpw wBlocks } 2
        (generateMerkleProof hpw wBlocks 2) = true :=
  ⟨by decide, merkle_roundtrip_valid hpw wBlocks 2 (by decide)⟩

/-! ## C6: root of the empty list -/

/-- C6 counterexample: over the empty block list, updateMerkleRoot returns the
plain string value "" on its ordinary String-valued path; no error value is
produced, contradicting the claim that the computation fails with
EmptyInputError rather than returning a value. -/
theorem updateMerkleRoot_nil_counterexample : updateMerkleRoot hpw [] = "" := rfl

/-- C6 amended: for the empty block list updateMerkleRoot returns the empty
string sentinel, a normal return value, rather than an error. -/
theorem updateMerkleRoot_nil (hp : String → String → String) :
    updateMerkleRoot hp [] = "" := rfl

/-! ## C7: out-of-range proof request -/

/-- C7 counterexample: for an index past the leaf count generateMerkleProof
returns nil, embedded as the empty list, which is exactly the value it also
returns for the valid index 0 of a one-leaf tree; the out-of-range value even
passes validation as the legitimate empty proof of that tree, so it is a
normal return value and not a distinguished error result. -/
theorem generateMerkleProof_out_of_range_counterexample :
    generateMerkleProof hpw wSingle 5 = [] ∧
      generateMerkleProof hpw wSingle 0 = [] ∧
      validateMerkleProof hpw { Blocks := wSingle, MerkleRoot := updateMerkleRoot hpw wSingle } 0
        (generateMerkleProof hpw wSingle 5) = true := by
  decide

/-- C7 amended: for a target index at or past the leaf count,
generateMerkleProof returns nil, embedded as the empty list, the same value as
a legitimate empty proof, rather than a distinct error result. -/
theorem generateMerkleProof_out_of_range (hp : String → String → String)
    (blocks : List Block) (i : Nat) (h : blocks.length ≤ i) :
    generateMerkleProof hp blocks i = [] := by
  unfold generateMerkleProof
  rw [if_pos h]

/-- Witness for the amended C7 at a one-block list and index 5. -/
theorem generateMerkleProof_out_of_range_witness :
    wSingle.length ≤ 5 ∧ generateMerkleProof hpw wSingle 5 = [] :=
  ⟨by decide, generateMerkleProof_out_of_range hpw wSingle 5 (by decide)⟩

/-! ## Selection loop: argmin characterization (helpers for C3 and C10) -/

/-- Per-index score the selection of addBlockToShards actually applies: shard
0 enters the scan as the initial minimum with its raw block count and no
penalty (part_005 line 28), every later shard with loadScore. -/
def loadScoreAt (forest : List Shard) (i : Nat) : Nat :=
  if i = 0 then (forest.headD shardDefault).Blocks.length
  else loadScore (forest.getD i shardDefault)

/-- Ghost mirror of the selection loop returning the final minimum score
instead of the final target index. -/
def selectLoopScore : List Shard → Nat → Nat
  | [], m => m
  | s :: rest, m =>
    if loadScore s < m then selectLoopScore rest (loadScore s) else selectLoopScore rest m

/-- Joint invariant of selectLoop and selectLoopScore: the final score is the
minimum of the incoming score and every scanned score, and the final target is
either the incoming target with the score unimproved, or the position of the
first scanned shard achieving the final score strictly below the incoming
minimum. -/
theorem selectLoop_spec : ∀ (rest : List Shard) (i t m : Nat), t < i →
    (selectLoopScore rest m ≤ m ∧
      ∀ j, j < rest.length → selectLoopScore rest m ≤ loadScore (rest.getD j shardDefault)) ∧
    ((selectLoop rest i t m = t ∧ selectLoopScore rest m = m) ∨
      (∃ j, j < rest.length ∧ selectLoop rest i t m = i + j ∧
        selectLoopScore rest m = loadScore (rest.getD j shardDefault) ∧
        selectLoopScore rest m < m ∧
        ∀ j2, j2 < rest.length → i + j2 < selectLoop rest i t m →
          selectLoopScore rest m < loadScore (rest.getD j2 shardDefault)))
  | [], i, t, m, ht => by
    refine ⟨⟨le_refl m, ?_⟩, Or.inl ⟨rfl, rfl⟩⟩
    intro j hj
    simp at hj
  | s :: rest2, i, t, m, ht => by
    by_cases hlt : loadScore s < m
    · obtain ⟨⟨ih1, ih2⟩, ih3⟩ := selectLoop_spec rest2 (i + 1) i (loadScore s) (by omega)
      simp only [selectLoop, selectLoopScore, if_pos hlt]
      refine ⟨⟨by omega, ?_⟩, ?_⟩
      · intro j hj
        cases j with
        | zero => simp only [List.getD_cons_zero]; omega
        | succ j2 => simp only [List.getD_cons_succ]; exact ih2 j2 (by simpa using hj)
      · rcases ih3 with ⟨hr, hsc⟩ | ⟨j, hj, hr, hsc, hlt2, hleast⟩
        · refine Or.inr ⟨0, by simp, by omega, ?_, by omega, ?_⟩
          · simp only [List.getD_cons_zero]; omega
          · intro j2 hj2 hlt3
            omega
        · refine Or.inr ⟨j + 1, by simpa using hj, by omega, ?_, by omega, ?_⟩
          · simp only [List.getD_cons_succ]; omega
          · intro j2 hj2 hlt3
            cases j2 with
            | zero => simp only [List.getD_cons_zero]; omega
            | succ k =>
              simp only [List.getD_cons_succ]
              exact hleast k (by simpa using hj2) (by omega)
    · obtain ⟨⟨ih1, ih2⟩, ih3⟩ := selectLoop_spec rest2 (i + 1) t m (by omega)
      simp only [selectLoop, selectLoopScore, if_neg hlt]
      refine ⟨⟨by omega, ?_⟩, ?_⟩
      · intro j hj
        cases j with
        | zero => simp only [List.getD_cons_zero]; omega
        | succ j2 => simp only [List.getD_cons_succ]; exact ih2 j2 (by simpa using hj)
      · rcases ih3 with ⟨hr, hsc⟩ | ⟨j, hj, hr, hsc, hlt2, hleast⟩
        · exact Or.inl ⟨hr, hsc⟩
        · refine Or.inr ⟨j + 1, by simpa using hj, by omega, ?_, by omega, ?_⟩
          · simp only [List.getD_cons_succ]; omega
          · intro j2 hj2 hlt3
            cases j2 with
            | zero => simp only [List.getD_cons_zero]; omega
            | succ k =>
              simp only [List.getD_cons_succ]
              exact hleast k (by simpa using hj2) (by omega)

/-- Argmin characterization of selectTarget on a nonempty forest: the returned
index is in range, its per-index score is minimal, and every earlier index has
a strictly larger score. -/
theorem selectTarget_spec (s0 : Shard) (rest : List Shard) :
    selectTarget (s0 :: rest) < (s0 :: rest).length ∧
    (∀ j, j < (s0 :: rest).length →
      loadScoreAt (s0 :: rest) (selectTarget (s0 :: rest)) ≤ loadScoreAt (s0 :: rest) j) ∧
    (∀ j, j < selectTarget (s0 :: rest) →
      loadScoreAt (s0 :: rest) (selectTarget (s0 :: rest)) < loadScoreAt (s0 :: rest) j) := by
  have hsel : selectTarget (s0 :: rest) = selectLoop rest 1 0 s0.Blocks.length := rfl
  have hat0 : loadScoreAt (s0 :: rest) 0 = s0.Blocks.length := rfl
  have hatS : ∀ j, loadScoreAt (s0 :: rest) (j + 1) = loadScore (rest.getD j shardDefault) := by
    intro j
    simp [loadScoreAt]
  obtain ⟨⟨h1, h2⟩, h3⟩ := selectLoop_spec rest 1 0 s0.Blocks.length (by omega)
  rcases h3 with ⟨hr, hsc⟩ | ⟨j, hj, hr, hsc, hlt2, hleast⟩
  · rw [hsel, hr]
    refine ⟨by simp, ?_, ?_⟩
    · intro j hjlen
      cases j with
      | zero => exact le_refl _
      | succ k =>
        rw [hat0, hatS]
        have := h2 k (by simpa using hjlen)
        omega
    · intro j hj0
      omega
  · rw [hsel, hr]
    have hscore : loadScoreAt (s0 :: rest) (1 + j) = selectLoopScore rest s0.Blocks.length := by
      have e : 1 + j = j + 1 := by omega
      rw [e, hatS]
      omega
    refine ⟨by simp; omega, ?_, ?_⟩
    · intro j2 hjlen
      rw [hscore]
      cases j2 with
      | zero => rw [hat0]; omega
      | succ k =>
        rw [hatS]
        have := h2 k (by simpa using hjlen)
        omega
    · intro j2 hj2
      rw [hscore]
      cases j2 with
      | zero => rw [hat0]; omega
      | succ k =>
        rw [hatS]
        have hrange : k < rest.length := by omega
        have := hleast k hrange (by omega)
        omega

/-- Block count at an index never exceeds the per-index selection score. -/
theorem count_le_loadScoreAt (forest : List Shard) (i : Nat) :
    (forest.getD i shardDefault).Blocks.length ≤ loadScoreAt forest i := by
  unfold loadScoreAt
  by_cases h : i = 0
  · subst h
    cases forest with
    | nil => simp
    | cons a l => simp
  · rw [if_neg h]
    unfold loadScore
    omega

/-- Per-index score of an empty shard is zero: the raw count is zero and the
penalty does not fire. -/
theorem loadScoreAt_of_empty (forest : List Shard) (k : Nat)
    (h : (forest.getD k shardDefault).Blocks = []) : loadScoreAt forest k = 0 := by
  unfold loadScoreAt
  by_cases h0 : k = 0
  · subst h0
    cases forest with
    | nil => rfl
    | cons a l => simp_all
  · rw [if_neg h0]
    unfold loadScore
    rw [h]
    rfl

/-- Membership gives a getD index. -/
theorem mem_getD : ∀ (l : List Shard) (s : Shard), s ∈ l →
    ∃ k, k < l.length ∧ l.getD k shardDefault = s
  | a :: rest, s, h => by
    rcases List.mem_cons.mp h with rfl | htail
    · exact ⟨0, by simp, rfl⟩
    · obtain ⟨k, hk, hg⟩ := mem_getD rest s htail
      exact ⟨k + 1, by simpa using hk, by simpa using hg⟩

/-- In-range getD values belong to the list. -/
theorem getD_mem : ∀ (l : List Shard) (k : Nat), k < l.length → l.getD k shardDefault ∈ l
  | a :: rest, 0, _ => by simp
  | a :: rest, k + 1, h => by
    simp only [List.getD_cons_succ]
    exact List.mem_cons_of_mem a (getD_mem rest k (by simpa using h))

/-- Nonempty lists have a last element. -/
theorem getLast?_of_ne_nil : ∀ (l : List Block), l ≠ [] → ∃ b, l.getLast? = some b
  | [], h => absurd rfl h
  | [a], _ => ⟨a, rfl⟩
  | a :: b :: rest, _ => by
    obtain ⟨x, hx⟩ := getLast?_of_ne_nil (b :: rest) (by simp)
    exact ⟨x, by rw [List.getLast?_cons_cons, hx]⟩

/-! ## C3: target-shard selection rule -/

/-- Shard with n anonymous blocks, for closed counterexamples. -/
def cxShard (n : Nat) : Shard :=
  { Blocks := (List.range n).map (fun k => { blockDefault with Index := k }), MerkleRoot := "" }

/-- C3 counterexample: at block counts (6, 5) the code selects shard 0 while
the claimed rule (uniform penalty from maxShardCapacity - 1 on, shard 0
included) selects shard 1; the code scores shard 0 by its raw count with no
penalty.  At counts (5, 4) the code selects shard 1, showing the penalty
threshold is strictly greater than maxShardCapacity - 1: the count-4 shard
scores 4 in the code but 6 under the claimed at-least threshold. -/
theorem selectTarget_rule_counterexample :
    selectTarget [cxShard 6, cxShard 5] = 0 ∧
      selectTargetClaim [cxShard 6, cxShard 5] = 1 ∧
      selectTarget [cxShard 5, cxShard 4] = 1 ∧
      loadScore (cxShard 4) = 4 ∧
      claimLoadScore (cxShard 4) = 6 := by
  decide

/-- C3 amended: target selection computes, for every shard index i of a
nonempty forest, the score loadScoreAt: the raw block count for shard 0 with
no penalty, and for every later shard the block count plus a penalty of 2
exactly when the count strictly exceeds maxShardCapacity - 1; the returned
index is in range, achieves the minimum score, and is the least index doing
so. -/
theorem selectTarget_least_argmin (forest : List Shard) (h : forest ≠ []) :
    selectTarget forest < forest.length ∧
    (∀ j, j < forest.length →
      loadScoreAt forest (selectTarget forest) ≤ loadScoreAt forest j) ∧
    (∀ j, j < selectTarget forest →
      loadScoreAt forest (selectTarget forest) < loadScoreAt forest j) := by
  cases forest with
  | nil => exact absurd rfl h
  | cons s0 rest => exact selectTarget_spec s0 rest

/-- Witness for the amended C3 at block counts (6, 5). -/
theorem selectTarget_least_argmin_witness :
    selectTarget [cxShard 6, cxShard 5] < ([cxShard 6, cxShard 5] : List Shard).length ∧
    (∀ j, j < ([cxShard 6, cxShard 5] : List Shard).length →
      loadScoreAt [cxShard 6, cxShard 5] (selectTarget [cxShard 6, cxShard 5]) ≤
        loadScoreAt [cxShard 6, cxShard 5] j) ∧
    (∀ j, j < selectTarget [cxShard 6, cxShard 5] →
      loadScoreAt [cxShard 6, cxShard 5] (selectTarget [cxShard 6, cxShard 5]) <
        loadScoreAt [cxShard 6, cxShard 5] j) :=
  selectTarget_least_argmin [cxShard 6, cxShard 5] (by decide)

/-! ## C10: unchecked tail read at ingest -/

/-- C10: the tail read of addBlockToShards is safe exactly when no shard is
empty: on a nonempty forest whose shards all hold at least one block the
selected tail exists, while any forest containing an empty shard makes the
selection pick a zero-score empty shard and the unchecked Blocks[len-1] read
fail (the embedded access yields none, the Go runtime panic). -/
theorem ingest_tail_access (forest : List Shard) (h : forest ≠ []) :
    ((∀ s ∈ forest, s.Blocks ≠ []) → ∃ b, ingestPrevBlock forest = some b) ∧
    ((∃ s ∈ forest, s.Blocks = []) → ingestPrevBlock forest = none) := by
  cases forest with
  | nil => exact absurd rfl h
  | cons s0 rest =>
    obtain ⟨hlt, hmin, _⟩ := selectTarget_spec s0 rest
    constructor
    · intro hall
      exact getLast?_of_ne_nil _ (hall _ (getD_mem _ _ hlt))
    · rintro ⟨s, hs, hempty⟩
      obtain ⟨k, hk, hgetD⟩ := mem_getD _ _ hs
      have h0 : loadScoreAt (s0 :: rest) k = 0 :=
        loadScoreAt_of_empty _ _ (by rw [hgetD]; exact hempty)
      have h1 : ((s0 :: rest).getD (selectTarget (s0 :: rest)) shardDefault).Blocks.length = 0 := by
        have hm := hmin k hk
        have hc := count_le_loadScoreAt (s0 :: rest) (selectTarget (s0 :: rest))
        omega
      unfold ingestPrevBlock
      rw [List.eq_nil_of_length_eq_zero h1]
      rfl

/-- Witness for C10: a two-shard forest with both shards nonempty admits the
tail read, and a forest whose second shard is empty makes it fail. -/
theorem ingest_tail_access_witness :
    (∃ b, ingestPrevBlock [⟨wSingle, ""⟩, ⟨wBlocks, ""⟩] = some b) ∧
      ingestPrevBlock [⟨wSingle, ""⟩, shardDefault] = none :=
  ⟨(ingest_tail_access [⟨wSingle, ""⟩, ⟨wBlocks, ""⟩] (by decide)).1 (by decide),
   (ingest_tail_access [⟨wSingle, ""⟩, shardDefault] (by decide)).2 (by decide)⟩

/-! ## Rebalance scan: ghost split and specification (helpers for C5) -/

/-- Ghost max-tracking half of the findMaxMin scan. -/
def findMaxLoop : List Shard → Nat → Nat × Nat → Nat × Nat
  | [], _, acc => acc
  | s :: rest, i, (xi, xc) =>
    findMaxLoop rest (i + 1) (if s.Blocks.length > xc then (i, s.Blocks.length) else (xi, xc))

/-- Ghost min-tracking half of the findMaxMin scan. -/
def findMinLoop : List Shard → Nat → Nat × Nat → Nat × Nat
  | [], _, acc => acc
  | s :: rest, i, (ni, nc) =>
    findMinLoop rest (i + 1) (if s.Blocks.length < nc then (i, s.Blocks.length) else (ni, nc))

/-- The single scan of rebalanceShards is the pair of its two independent
halves. -/
theorem findMaxMin_eq : ∀ (rest : List Shard) (i : Nat) (a b : Nat × Nat),
    findMaxMin rest i (a, b) = (findMaxLoop rest i a, findMinLoop rest i b)
  | [], _, _, _ => rfl
  | s :: rest2, i, (xi, xc), (ni, nc) => by
    simp only [findMaxMin, findMaxLoop, findMinLoop]
    exact findMaxMin_eq rest2 (i + 1) _ _

/-- Specification of the max scan: the tracked count never decreases, the
result is the incoming pair or the position and count of a scanned shard, and
it dominates every scanned count. -/
theorem findMaxLoop_spec : ∀ (rest : List Shard) (i xi xc : Nat),
    xc ≤ (findMaxLoop rest i (xi, xc)).2 ∧
    ((findMaxLoop rest i (xi, xc)) = (xi, xc) ∨
      ∃ j, j < rest.length ∧ (findMaxLoop rest i (xi, xc)).1 = i + j ∧
        (findMaxLoop rest i (xi, xc)).2 = (rest.getD j shardDefault).Blocks.length) ∧
    (∀ j, j < rest.length →
      (rest.getD j shardDefault).Blocks.length ≤ (findMaxLoop rest i (xi, xc)).2)
  | [], i, xi, xc => by
    refine ⟨le_refl xc, Or.inl rfl, ?_⟩
    intro j hj
    simp at hj
  | s :: rest2, i, xi, xc => by
    by_cases hgt : s.Blocks.length > xc
    · obtain ⟨ih1, ihor, ihall⟩ := findMaxLoop_spec rest2 (i + 1) i s.Blocks.length
      simp only [findMaxLoop, if_pos hgt]
      refine ⟨by omega, ?_, ?_⟩
      · rcases ihor with heq | ⟨j, hj, h1, h2⟩
        · refine Or.inr ⟨0, by simp, ?_, ?_⟩
          · rw [heq]; omega
          · rw [heq]; simp
        · refine Or.inr ⟨j + 1, by simpa using hj, by omega, ?_⟩
          simpa using h2
      · intro j hj
        cases j with
        | zero => simpa using ih1
        | succ k => simpa using ihall k (by simpa using hj)
    · obtain ⟨ih1, ihor, ihall⟩ := findMaxLoop_spec rest2 (i + 1) xi xc
      simp only [findMaxLoop, if_neg hgt]
      refine ⟨ih1, ?_, ?_⟩
      · rcases ihor with heq | ⟨j, hj, h1, h2⟩
        · exact Or.inl heq
        · refine Or.inr ⟨j + 1, by simpa using hj, by omega, ?_⟩
          simpa using h2
      · intro j hj
        cases j with
        | zero => simp only [List.getD_cons_zero]; omega
        | succ k => simpa using ihall k (by simpa using hj)

/-- Specification of the min scan, symmetric to the max scan. -/
theorem findMinLoop_spec : ∀ (rest : List Shard) (i ni nc : Nat),
    (findMinLoop rest i (ni, nc)).2 ≤ nc ∧
    ((findMinLoop rest i (ni, nc)) = (ni, nc) ∨
      ∃ j, j < rest.length ∧ (findMinLoop rest i (ni, nc)).1 = i + j ∧
        (findMinLoop rest i (ni, nc)).2 = (rest.getD j shardDefault).Blocks.length) ∧
    (∀ j, j < rest.length →
      (findMinLoop rest i (ni, nc)).2 ≤ (rest.getD j shardDefault).Blocks.length)
  | [], i, ni, nc => by
    refine ⟨le_refl nc, Or.inl rfl, ?_⟩
    intro j hj
    simp at hj
  | s :: rest2, i, ni, nc => by
    by_cases hlt : s.Blocks.length < nc
    · obtain ⟨ih1, ihor, ihall⟩ := findMinLoop_spec rest2 (i + 1) i s.Blocks.length
      simp only [findMinLoop, if_pos hlt]
      refine ⟨by omega, ?_, ?_⟩
      · rcases ihor with heq | ⟨j, hj, h1, h2⟩
        · refine Or.inr ⟨0, by simp, ?_, ?_⟩
          · rw [heq]; omega
          · rw [heq]; simp
        · refine Or.inr ⟨j + 1, by simpa using hj, by omega, ?_⟩
          simpa using h2
      · intro j hj
        cases j with
        | zero => simpa using ih1
        | succ k => simpa using ihall k (by simpa using hj)
    · obtain ⟨ih1, ihor, ihall⟩ := findMinLoop_spec rest2 (i + 1) ni nc
      simp only [findMinLoop, if_neg hlt]
      refine ⟨ih1, ?_, ?_⟩
      · rcases ihor with heq | ⟨j, hj, h1, h2⟩
        · exact Or.inl heq
        · refine Or.inr ⟨j + 1, by simpa using hj, by omega, ?_⟩
          simpa using h2
      · intro j hj
        cases j with
        | zero => simp only [List.getD_cons_zero]; omega
        | succ k => simpa using ihall k (by simpa using hj)

/-! ## Multiset bookkeeping (helpers for C5) -/

/-- Multiset of all blocks across the forest, the quantity conserved by
rebalancing. -/
def totalBlocks (forest : List Shard) : Multiset Block :=
  (forest.map fun s => (s.Blocks : Multiset Block)).sum

/-- Setting one entry of a list of multisets exchanges the old entry for the
new one in the sum. -/
theorem msum_set : ∀ (l : List (Multiset Block)) (i : Nat) (x : Multiset Block),
    i < l.length → (l.set i x).sum + l.getD i 0 = l.sum + x
  | a :: rest, 0, x, _ => by
    simp only [List.set_cons_zero, List.sum_cons, List.getD_cons_zero]
    abel
  | a :: rest, i + 1, x, h => by
    simp only [List.set_cons_succ, List.sum_cons, List.getD_cons_succ]
    have ih := msum_set rest i x (by simpa using h)
    calc a + (rest.set i x).sum + rest.getD i 0
        = a + ((rest.set i x).sum + rest.getD i 0) := by rw [add_assoc]
      _ = a + (rest.sum + x) := by rw [ih]
      _ = a + rest.sum + x := by rw [add_assoc]

/-- Reading a position other than the one just set is unchanged. -/
theorem getD_set_ne : ∀ (l : List (Multiset Block)) (i j : Nat) (x : Multiset Block),
    i ≠ j → (l.set i x).getD j 0 = l.getD j 0
  | [], _, _, _, _ => by simp
  | a :: rest, 0, j, x, hne => by
    obtain ⟨j2, rfl⟩ : ∃ j2, j = j2 + 1 := ⟨j - 1, by omega⟩
    simp
  | a :: rest, i + 1, 0, x, _ => by simp
  | a :: rest, i + 1, j + 1, x, hne => by
    simp only [List.set_cons_succ, List.getD_cons_succ]
    exact getD_set_ne rest i j x (by omega)

/-- getD through the blocks-to-multiset projection, inside the range. -/
theorem getD_map_blocks : ∀ (forest : List Shard) (j : Nat), j < forest.length →
    (forest.map fun s => (s.Blocks : Multiset Block)).getD j 0 =
      ((forest.getD j shardDefault).Blocks : Multiset Block)
  | a :: rest, 0, _ => rfl
  | a :: rest, j + 1, h => by
    simpa using getD_map_blocks rest j (by simpa using h)

/-- The last block put back after dropLast restores the list. -/
theorem dropLast_append_getLastD : ∀ (l : List Block) (d : Block), l ≠ [] →
    l.dropLast ++ [l.getLastD d] = l
  | [a], d, _ => rfl
  | a :: b :: rest, d, _ => by
    have ih := dropLast_append_getLastD (b :: rest) a (by simp)
    show a :: ((b :: rest).dropLast ++ [(b :: rest).getLastD a]) = a :: b :: rest
    rw [ih]

/-- A double set that exchanges block content between two distinct positions
without net gain or loss conserves the total multiset of blocks. -/
theorem totalBlocks_exchange (forest : List Shard) (xi ni : Nat) (A B : Shard)
    (hxi : xi < forest.length) (hni : ni < forest.length) (hne : xi ≠ ni)
    (hAB : (A.Blocks : Multiset Block) + (B.Blocks : Multiset Block) =
      ((forest.getD xi shardDefault).Blocks : Multiset Block) +
        ((forest.getD ni shardDefault).Blocks : Multiset Block)) :
    totalBlocks ((forest.set xi A).set ni B) = totalBlocks forest := by
  unfold totalBlocks
  rw [List.map_set, List.map_set]
  set L := forest.map fun s => (s.Blocks : Multiset Block) with hL
  have hlen : L.length = forest.length := by rw [hL, List.length_map]
  have h1 := msum_set (L.set xi ↑A.Blocks) ni ↑B.Blocks
    (by rw [List.length_set]; omega)
  have h2 := msum_set L xi ↑A.Blocks (by omega)
  have h3 : (L.set xi ↑A.Blocks).getD ni 0 = L.getD ni 0 := getD_set_ne L xi ni _ hne
  have h4 : L.getD xi 0 = ↑(forest.getD xi shardDefault).Blocks := getD_map_blocks forest xi hxi
  have h5 : L.getD ni 0 = ↑(forest.getD ni shardDefault).Blocks := getD_map_blocks forest ni hni
  have key : ((L.set xi ↑A.Blocks).set ni ↑B.Blocks).sum + (L.getD ni 0 + L.getD xi 0) =
      L.sum + (L.getD ni 0 + L.getD xi 0) := by
    calc ((L.set xi ↑A.Blocks).set ni ↑B.Blocks).sum + (L.getD ni 0 + L.getD xi 0)
        = (((L.set xi ↑A.Blocks).set ni ↑B.Blocks).sum + (L.set xi ↑A.Blocks).getD ni 0)
            + L.getD xi 0 := by rw [h3, add_assoc]
      _ = ((L.set xi ↑A.Blocks).sum + ↑B.Blocks) + L.getD xi 0 := by rw [h1]
      _ = ((L.set xi ↑A.Blocks).sum + L.getD xi 0) + ↑B.Blocks := by
            rw [add_assoc, add_comm (↑B.Blocks : Multiset Block), ← add_assoc]
      _ = (L.sum + ↑A.Blocks) + ↑B.Blocks := by rw [h2]
      _ = L.sum + (↑A.Blocks + ↑B.Blocks) := by rw [add_assoc]
      _ = L.sum + (↑(forest.getD xi shardDefault).Blocks +
            ↑(forest.getD ni shardDefault).Blocks) := by rw [hAB]
      _ = L.sum + (L.getD ni 0 + L.getD xi 0) := by
            rw [h4, h5, add_comm (↑(forest.getD xi shardDefault).Blocks : Multiset Block)]
  exact add_right_cancel key

/-- Unfolding of rebalanceShards through the ghost split of its scan. -/
theorem rebalanceShards_unfold (hp : String → String → String) (forest : List Shard) :
    rebalanceShards hp forest =
      (if (findMaxLoop forest 0 (0, 0)).1 ≠
            (findMinLoop forest 0 (0, (forest.headD shardDefault).Blocks.length)).1 ∧
          (findMaxLoop forest 0 (0, 0)).2 -
            (findMinLoop forest 0 (0, (forest.headD shardDefault).Blocks.length)).2 > 1 then
        (forest.set (findMaxLoop forest 0 (0, 0)).1
          { Blocks := (forest.getD (findMaxLoop forest 0 (0, 0)).1 shardDefault).Blocks.dropLast,
            MerkleRoot := updateMerkleRoot hp
              (forest.getD (findMaxLoop forest 0 (0, 0)).1 shardDefault).Blocks.dropLast }).set
          (findMinLoop forest 0 (0, (forest.headD shardDefault).Blocks.length)).1
          { Blocks :=
              (forest.getD
                (findMinLoop forest 0 (0, (forest.headD shardDefault).Blocks.length)).1
                shardDefault).Blocks ++
                [(forest.getD (findMaxLoop forest 0 (0, 0)).1
                  shardDefault).Blocks.getLastD blockDefault],
            MerkleRoot := updateMerkleRoot hp
              ((forest.getD
                (findMinLoop forest 0 (0, (forest.headD shardDefault).Blocks.length)).1
                shardDefault).Blocks ++
                [(forest.getD (findMaxLoop forest 0 (0, 0)).1
                  shardDefault).Blocks.getLastD blockDefault]) }
      else forest) := by
  unfold rebalanceShards
  rw [findMaxMin_eq]

/-- Reading position zero is reading the head. -/
theorem getD_zero_eq_headD (l : List Shard) : l.getD 0 shardDefault = l.headD shardDefault := by
  cases l <;> rfl

/-! ## C5: rebalancing conserves blocks -/

/-- C5: rebalanceShards conserves the multiset of blocks across the forest
(so in particular the total count), and it either leaves the forest unchanged
or, exactly when the scan finds a max-count shard and a min-count shard at
distinct indices with a count gap above 1, removes the tail block of the
max-count shard and appends that same block to the min-count shard. -/
theorem rebalance_conserves_blocks (hp : String → String → String) (forest : List Shard)
    (h : forest ≠ []) :
    totalBlocks (rebalanceShards hp forest) = totalBlocks forest ∧
    (rebalanceShards hp forest = forest ∨
      ∃ xi ni, xi < forest.length ∧ ni < forest.length ∧ xi ≠ ni ∧
        (∀ j, j < forest.length → (forest.getD j shardDefault).Blocks.length ≤
          (forest.getD xi shardDefault).Blocks.length) ∧
        (∀ j, j < forest.length → (forest.getD ni shardDefault).Blocks.length ≤
          (forest.getD j shardDefault).Blocks.length) ∧
        (forest.getD ni shardDefault).Blocks.length + 1 <
          (forest.getD xi shardDefault).Blocks.length ∧
        rebalanceShards hp forest =
          (forest.set xi
            { Blocks := (forest.getD xi shardDefault).Blocks.dropLast,
              MerkleRoot := updateMerkleRoot hp
                (forest.getD xi shardDefault).Blocks.dropLast }).set ni
            { Blocks := (forest.getD ni shardDefault).Blocks ++
                [(forest.getD xi shardDefault).Blocks.getLastD blockDefault],
              MerkleRoot := updateMerkleRoot hp
                ((forest.getD ni shardDefault).Blocks ++
                  [(forest.getD xi shardDefault).Blocks.getLastD blockDefault]) }) := by
  obtain ⟨hx1, hxor, hxall⟩ := findMaxLoop_spec forest 0 0 0
  obtain ⟨hn1, hnor, hnall⟩ :=
    findMinLoop_spec forest 0 0 ((forest.headD shardDefault).Blocks.length)
  rw [rebalanceShards_unfold hp forest]
  set xM := findMaxLoop forest 0 (0, 0) with hxM
  set mN := findMinLoop forest 0 (0, (forest.headD shardDefault).Blocks.length) with hmN
  by_cases hcond : xM.1 ≠ mN.1 ∧ xM.2 - mN.2 > 1
  · rw [if_pos hcond]
    -- the max result is a real scanned position: its count is at least 2
    have hxreal : xM.1 < forest.length ∧
        (forest.getD xM.1 shardDefault).Blocks.length = xM.2 := by
      rcases hxor with heq | ⟨j, hj, h1, h2⟩
      · have : xM.2 = 0 := by rw [heq]
        omega
      · refine ⟨by omega, ?_⟩
        rw [h1]
        simpa using h2.symm
    have hnreal : mN.1 < forest.length ∧
        (forest.getD mN.1 shardDefault).Blocks.length = mN.2 := by
      rcases hnor with heq | ⟨j, hj, h1, h2⟩
      · have h0 : mN.1 = 0 := by rw [heq]
        have hc : mN.2 = (forest.headD shardDefault).Blocks.length := by rw [heq]
        refine ⟨by rw [h0]; cases forest with
          | nil => exact absurd rfl h
          | cons a l => simp, ?_⟩
        rw [h0, getD_zero_eq_headD, hc]
      · refine ⟨by omega, ?_⟩
        rw [h1]
        simpa using h2.symm
    obtain ⟨hxlen, hxc⟩ := hxreal
    obtain ⟨hnlen, hnc⟩ := hnreal
    have hgap : mN.2 + 1 < xM.2 := by omega
    have hxne : (forest.getD xM.1 shardDefault).Blocks ≠ [] := by
      intro hnil
      rw [hnil] at hxc
      simp at hxc
      omega
    have hrestore := dropLast_append_getLastD (forest.getD xM.1 shardDefault).Blocks
      blockDefault hxne
    have hAB : ((forest.getD xM.1 shardDefault).Blocks.dropLast : Multiset Block) +
        (((forest.getD mN.1 shardDefault).Blocks ++
          [(forest.getD xM.1 shardDefault).Blocks.getLastD blockDefault]) : Multiset Block) =
        ((forest.getD xM.1 shardDefault).Blocks : Multiset Block) +
          ((forest.getD mN.1 shardDefault).Blocks : Multiset Block) := by
      rw [Multiset.coe_add, Multiset.coe_add, Multiset.coe_eq_coe]
      refine List.Perm.trans (List.Perm.append_left _ List.perm_append_comm) ?_
      rw [← List.append_assoc, hrestore]
    refine ⟨totalBlocks_exchange forest xM.1 mN.1 _ _ hxlen hnlen hcond.1 hAB, ?_⟩
    refine Or.inr ⟨xM.1, mN.1, hxlen, hnlen, hcond.1, ?_, ?_, ?_, rfl⟩
    · intro j hj
      rw [hxc]
      exact hxall j hj
    · intro j hj
      rw [hnc]
      exact hnall j hj
    · omega
  · rw [if_neg hcond]
    exact ⟨rfl, Or.inl rfl⟩

/-- Witness for C5: counts (3, 1) trigger a move; the instantiated conclusion
holds at that concrete forest. -/
theorem rebalance_conserves_blocks_witness :
    totalBlocks (rebalanceShards hpw [cxShard 3, cxShard 1]) =
      totalBlocks [cxShard 3, cxShard 1] ∧
    (rebalanceShards hpw [cxShard 3, cxShard 1] = [cxShard 3, cxShard 1] ∨
      ∃ xi ni, xi < ([cxShard 3, cxShard 1] : List Shard).length ∧
        ni < ([cxShard 3, cxShard 1] : List Shard).length ∧ xi ≠ ni ∧
        (∀ j, j < ([cxShard 3, cxShard 1] : List Shard).length →
          (([cxShard 3, cxShard 1] : List Shard).getD j shardDefault).Blocks.length ≤
          (([cxShard 3, cxShard 1] : List Shard).getD xi shardDefault).Blocks.length) ∧
        (∀ j, j < ([cxShard 3, cxShard 1] : List Shard).length →
          (([cxShard 3, cxShard 1] : List Shard).getD ni shardDefault).Blocks.length ≤
          (([cxShard 3, cxShard 1] : List Shard).getD j shardDefault).Blocks.length) ∧
        (([cxShard 3, cxShard 1] : List Shard).getD ni shardDefault).Blocks.length + 1 <
          (([cxShard 3, cxShard 1] : List Shard).getD xi shardDefault).Blocks.length ∧
        rebalanceShards hpw [cxShard 3, cxShard 1] =
          (([cxShard 3, cxShard 1] : List Shard).set xi
            { Blocks := (([cxShard 3, cxShard 1] : List Shard).getD xi
                shardDefault).Blocks.dropLast,
              MerkleRoot := updateMerkleRoot hpw
                (([cxShard 3, cxShard 1] : List Shard).getD xi
                  shardDefault).Blocks.dropLast }).set ni
            { Blocks := (([cxShard 3, cxShard 1] : List Shard).getD ni shardDefault).Blocks ++
                [(([cxShard 3, cxShard 1] : List Shard).getD xi
                  shardDefault).Blocks.getLastD blockDefault],
              MerkleRoot := updateMerkleRoot hpw
                ((([cxShard 3, cxShard 1] : List Shard).getD ni shardDefault).Blocks ++
                  [(([cxShard 3, cxShard 1] : List Shard).getD xi
                    shardDefault).Blocks.getLastD blockDefault]) }) :=
  rebalance_conserves_blocks hpw [cxShard 3, cxShard 1] (by decide)

/-! ## Cross-shard synchronization (helpers for C2 and C8) -/

/-- Reading the position just set returns the new value, inside the range. -/
theorem getD_set_self {α : Type} : ∀ (l : List α) (i : Nat) (x d : α), i < l.length →
    (l.set i x).getD i d = x
  | _ :: _, 0, _, _, _ => rfl
  | _ :: rest, i + 1, x, d, h => by
    simpa using getD_set_self rest i x d (by simpa using h)

/-- Reading a position other than the one just set is unchanged, for any
element type. -/
theorem getD_set_other {α : Type} : ∀ (l : List α) (i j : Nat) (x d : α), i ≠ j →
    (l.set i x).getD j d = l.getD j d
  | [], _, _, _, _, _ => by simp
  | a :: rest, 0, j, x, d, hne => by
    obtain ⟨j2, rfl⟩ : ∃ j2, j = j2 + 1 := ⟨j - 1, by omega⟩
    simp
  | a :: rest, i + 1, 0, x, d, _ => by simp
  | a :: rest, i + 1, j + 1, x, d, hne => by
    simp only [List.set_cons_succ, List.getD_cons_succ]
    exact getD_set_other rest i j x d (by omega)

/-- Entries of the global root refresh: blocks unchanged, root recomputed. -/
theorem synchronizeShards_getD (hp : String → String → String) :
    ∀ (f : List Shard) (j : Nat), j < f.length →
      (synchronizeShards hp f).getD j shardDefault =
        { Blocks := (f.getD j shardDefault).Blocks,
          MerkleRoot := updateMerkleRoot hp (f.getD j shardDefault).Blocks }
  | a :: rest, 0, _ => rfl
  | a :: rest, j + 1, hj => by
    simpa [synchronizeShards] using synchronizeShards_getD hp rest j (by simpa using hj)

/-- The global root refresh keeps the forest length. -/
theorem synchronizeShards_length (hp : String → String → String) (f : List Shard) :
    (synchronizeShards hp f).length = f.length := by
  simp [synchronizeShards]

/-! ## C8: failed validation leaves the forest untouched -/

/-- C8: whenever the proof of the source tail block fails validation against
the current source root, synchronizeStateAcrossShards returns the forest
exactly as it was: no block list and no cached root changes. -/
theorem sync_failure_no_mutation (hp : String → String → String) (forest : List Shard)
    (src tgt : Nat) (hsrc : src < forest.length) (htgt : tgt < forest.length)
    (hne : (forest.getD src shardDefault).Blocks ≠ [])
    (hval : validateMerkleProof hp (forest.getD src shardDefault)
        ((forest.getD src shardDefault).Blocks.length - 1)
        (generateMerkleProof hp (forest.getD src shardDefault).Blocks
          ((forest.getD src shardDefault).Blocks.length - 1)) = false) :
    synchronizeStateAcrossShards hp forest src tgt = some forest := by
  simp only [synchronizeStateAcrossShards]
  rw [if_pos (And.intro hsrc htgt)]
  obtain ⟨b, hb⟩ := getLast?_of_ne_nil _ hne
  simp only [hb, hval]
  simp

/-- Source shard whose cached root is wrong on purpose, so validation fails. -/
def wBadShard : Shard := { Blocks := wSingle, MerkleRoot := "bogus" }

/-- Witness for C8: a one-shard forest with a corrupted cached root is
returned unchanged. -/
theorem sync_failure_no_mutation_witness :
    (([wBadShard] : List Shard).getD 0 shardDefault).Blocks ≠ [] ∧
      synchronizeStateAcrossShards hpw [wBadShard] 0 0 = some [wBadShard] :=
  ⟨by decide,
   sync_failure_no_mutation hpw [wBadShard] 0 0 (by decide) (by decide) (by decide) (by decide)⟩

/-! ## C2: what the successful synchronization appends -/

/-- Source blocks of the C2 counterexample: the tail block carries
PrevHash "A", its link into the source chain. -/
def cxSrcB0 : Block := { blockDefault with Hash := "A" }

/-- Tail block of the counterexample source shard. -/
def cxSrcB1 : Block := { blockDefault with PrevHash := "A", Hash := "B" }

/-- Tail block of the counterexample target shard, with hash "C". -/
def cxTgtC0 : Block := { blockDefault with Hash := "C" }

/-- Two-shard forest for the C2 counterexample: the source root is the true
root of its chain, so validation succeeds and the transfer runs. -/
def cxForest : List Shard :=
  [{ Blocks := [cxSrcB0, cxSrcB1], MerkleRoot := rootFrom hpw ["A", "B"] },
   { Blocks := [cxTgtC0], MerkleRoot := "C" }]

/-- C2 counterexample: the synchronization appends the source tail block to
the target shard with its PrevHash still "A", the hash of the source chain
predecessor, while the previous tail of the target shard has hash "C"; the
appended block is not re-chained onto the target chain as the claim states. -/
theorem sync_not_rewrapped_counterexample :
    (synchronizeStateAcrossShards hpw cxForest 0 1).isSome = true ∧
    (((synchronizeStateAcrossShards hpw cxForest 0 1).getD []).getD 1 shardDefault).Blocks.map
      (fun b => b.PrevHash) = ["", "A"] ∧
    ((((synchronizeStateAcrossShards hpw cxForest 0 1).getD []).getD 1
        shardDefault).Blocks.getLastD blockDefault).PrevHash ≠
      ((cxForest.getD 1 shardDefault).Blocks.getLastD blockDefault).Hash := by
  decide

/-- C2 amended: when validation of the source tail proof succeeds, the block
appended to the target shard is the source tail block verbatim, every field
including PrevHash (which keeps its source-chain linkage); no other shard
block list changes, and every cached root is then recomputed from its current
blocks. -/
theorem sync_appends_source_tail_verbatim (hp : String → String → String)
    (forest : List Shard) (src tgt : Nat) (hsrc : src < forest.length)
    (htgt : tgt < forest.length) (b : Block)
    (hlast : (forest.getD src shardDefault).Blocks.getLast? = some b)
    (hval : validateMerkleProof hp (forest.getD src shardDefault)
        ((forest.getD src shardDefault).Blocks.length - 1)
        (generateMerkleProof hp (forest.getD src shardDefault).Blocks
          ((forest.getD src shardDefault).Blocks.length - 1)) = true) :
    ∃ forest2, synchronizeStateAcrossShards hp forest src tgt = some forest2 ∧
      forest2.length = forest.length ∧
      (forest2.getD tgt shardDefault).Blocks =
        (forest.getD tgt shardDefault).Blocks ++ [b] ∧
      (∀ j, j < forest.length → j ≠ tgt →
        (forest2.getD j shardDefault).Blocks = (forest.getD j shardDefault).Blocks) ∧
      (∀ j, j < forest.length → (forest2.getD j shardDefault).MerkleRoot =
        updateMerkleRoot hp (forest2.getD j shardDefault).Blocks) := by
  have heq : synchronizeStateAcrossShards hp forest src tgt =
      some (synchronizeShards hp (forest.set tgt
        { forest.getD tgt shardDefault with
            Blocks := (forest.getD tgt shardDefault).Blocks ++ [b] })) := by
    simp only [synchronizeStateAcrossShards]
    rw [if_pos (And.intro hsrc htgt)]
    simp only [hlast, hval]
    simp
  refine ⟨_, heq, ?_, ?_, ?_, ?_⟩
  · rw [synchronizeShards_length, List.length_set]
  · rw [synchronizeShards_getD hp _ tgt (by rw [List.length_set]; omega)]
    simp only [getD_set_self forest tgt _ shardDefault htgt]
  · intro j hj hne
    rw [synchronizeShards_getD hp _ j (by rw [List.length_set]; omega)]
    simp only [getD_set_other forest tgt j _ shardDefault (fun he => hne he.symm)]
  · intro j hj
    rw [synchronizeShards_getD hp _ j (by rw [List.length_set]; omega)]

/-- Witness for the amended C2 at the concrete two-shard forest. -/
theorem sync_appends_source_tail_verbatim_witness :
    (cxForest.getD 0 shardDefault).Blocks.getLast? = some cxSrcB1 ∧
    ∃ forest2, synchronizeStateAcrossShards hpw cxForest 0 1 = some forest2 ∧
      forest2.length = cxForest.length ∧
      (forest2.getD 1 shardDefault).Blocks =
        (cxForest.getD 1 shardDefault).Blocks ++ [cxSrcB1] ∧
      (∀ j, j < cxForest.length → j ≠ 1 →
        (forest2.getD j shardDefault).Blocks = (cxForest.getD j shardDefault).Blocks) ∧
      (∀ j, j < cxForest.length → (forest2.getD j shardDefault).MerkleRoot =
        updateMerkleRoot hpw (forest2.getD j shardDefault).Blocks) :=
  ⟨by decide,
   sync_appends_source_tail_verbatim hpw cxForest 0 1 (by decide) (by decide) cxSrcB1
     (by decide) (by decide)⟩

/-! ## C4: presence filter misses blocks placed by synchronization -/

/-- Genesis block of shard 0 in the C4 scenario, as main.go creates it: one
genesis block per shard, no AMQ insert. -/
def g0 : Block := { blockDefault with Timestamp := "t0", Data := "Genesis Block", Hash := "G0" }

/-- Genesis block of shard 1 in the C4 scenario. -/
def g1 : Block := { blockDefault with Timestamp := "t1", Data := "Genesis Block", Hash := "G1" }

/-- Initial package state after main.go initialization: two one-block shards
whose roots are their genesis hashes, and two empty AMQ filters from
initAMQFilters. -/
def initialState : ForestState :=
  { forest := [{ Blocks := [g0], MerkleRoot := "G0" }, { Blocks := [g1], MerkleRoot := "G1" }],
    filters := [[], []] }

/-- State after one accepted ingest into the initial state, with concrete
collaborators: timestamp "t2", nonce 0, content hash "NB", consensus true. -/
def c4Result : Option ForestState :=
  addBlockToShards hpw "t2" (fun _ => 0) (fun _ => "NB") (fun _ => true) initialState "d" "v"

/-- C4: after one accepted ingest from the freshly initialized forest, the
cross-shard synchronization copies the new block (hash "NB") into shard 1,
yet the presence query on filter 1 for that hash answers false: neither
synchronizeStateAcrossShards nor rebalanceShards calls updateAMQ, so the
filter has a false negative for a block actually present in the shard. -/
theorem amq_false_negative_after_sync :
    c4Result.isSome = true ∧
    ((c4Result.getD { forest := [], filters := [] }).forest.getD 1 shardDefault).Blocks.map
      (fun b => b.Hash) = ["G1", "NB"] ∧
    isInAMQ (c4Result.getD { forest := [], filters := [] }).filters 1 "NB" = false := by
  decide

/-! ## C9: accumulator snapshot on a short hash -/

/-- Shard holding one block whose hash decodes to a single byte. -/
def shortHashShard : Shard := { Blocks := [{ blockDefault with Hash := "ab" }], MerkleRoot := "" }

/-- Modelled from the spec: accumulatorSnapshot as section 4.2 requires it,
with a hash decoding shorter than the accumulator width treated as
zero-padded to 32 bytes instead of read out of range (the spec marks this a
correctness requirement beyond the undefined behavior of the legacy code). -/
def specAccumulatorSnapshot (shard : Shard) : List Nat :=
  shard.Blocks.foldl
    (fun acc block =>
      acc.zipWith Nat.xor
        (hexDecode block.Hash.toList ++
          List.replicate (32 - (hexDecode block.Hash.toList).length) 0))
    (List.replicate 32 0)

/-- C9: on a block hash decoding to fewer than 32 bytes the Go code indexes
hashBytes[i] out of range (the embedded snapshot is none, the runtime panic),
while the zero-padded accumulator the claim describes is defined and equals
the single decoded byte followed by 31 zero bytes. -/
theorem accumulator_short_hash_panics :
    getAccumulatorSnapshot shortHashShard = none ∧
    hexDecode ("ab".toList) = [171] ∧
    specAccumulatorSnapshot shortHashShard = 171 :: List.replicate 31 0 := by
  decide

end AdaptiveChain
